import Mathlib

/-!
Verification of the daisy directory-scanner core.

Shallow embedding of the daisy codebase (src/scanner.ts, src/utils.ts,
src/watcher.ts, the HTTP server's scan sequencing, and the front-end
reconciliation logic) together with proofs and refutations of the
specification claims.

Modelling conventions:
* JavaScript numbers holding byte counts, mtimes and depths are modelled
  as `Nat` (all values involved are non-negative integers below 2^53,
  where JS arithmetic is exact).
* JavaScript strings are Lean `String`s; the string operations used by
  the source (`split("/")`, `startsWith`, `endsWith`, `slice`) are
  modelled character-wise on `String.data`.
* The filesystem is a value `FS`; `stat` failures are the constructor
  `FS.broken`, `readdir` failures are `readable = false` on a directory.
* Functions that can throw return `Option`; `none` is a thrown error.
* The module-level mutable `sizeCache` map is threaded explicitly.
* `Array.prototype.sort` is required (ES2019) to be a stable sort, so it
  is modelled by `List.insertionSort`, which is stable.
-/

/-! ## String operations (src/utils.ts, path handling) -/

/-- Character-level splitting; models `String.prototype.split` with a
single-character separator (`path.split("/")`). -/
def splitChar (c : Char) : List Char → List (List Char)
  | [] => [[]]
  | x :: xs =>
    if x = c then [] :: splitChar c xs
    else
      match splitChar c xs with
      | [] => [[x]]
      | h :: t => (x :: h) :: t

/-- Model of `s.split("/")` from the source. -/
def splitSlash (s : String) : List String :=
  (splitChar '/' s.data).map String.mk

/-- The expression `path.split("/").pop() ?? path` (scanner.ts): the last segment of a
path; `split` never yields an empty array so the default is unreachable. -/
def baseName (s : String) : String := (splitSlash s).getLastD s

/-- The last path segment with the `?? ""` default used in `shouldIgnore`. -/
def lastSeg (s : String) : String := (splitSlash s).getLastD ""

/-- Model of `s.startsWith(p)` from JavaScript. -/
def strStartsWith (s p : String) : Bool := p.data.isPrefixOf s.data

/-- Model of `s.endsWith(p)` from JavaScript. -/
def strEndsWith (s p : String) : Bool := p.data.isSuffixOf s.data

/-- The pattern loop of `shouldIgnore` (utils.ts): exact match,
`prefix*`, or `*suffix`, applied to a base name. -/
def nameMatches (name : String) (patterns : List String) : Bool :=
  patterns.any fun pattern =>
    if strStartsWith pattern "*" then strEndsWith name (pattern.drop 1)
    else if strEndsWith pattern "*" then strStartsWith name (pattern.dropRight 1)
    else name == pattern

/-- Model of `shouldIgnore(path, patterns)` (utils.ts): takes the base name of
`path` and tests it against each pattern. -/
def shouldIgnore (path : String) (patterns : List String) : Bool :=
  nameMatches (lastSeg path) patterns

/-- Model of `join(path, entry)` (node:path) as used by the scanner: `path` is an
absolute normalized path (from `resolve`) and `entry` a directory entry
name, so the join appends a separator unless the path is the root. -/
def joinPath (p e : String) : String := if p = "/" then p ++ e else p ++ "/" ++ e

/-! ## Size cache (scanner.ts `sizeCache`) -/

/-- A `sizeCache` value: `{ size, mtime }`. -/
structure SizeEntry where
  size : Nat
  mtime : Nat
deriving Repr, DecidableEq

/-- The module-level `Map<string, {size, mtime}>`, modelled as an
association list; only `get`/`set`/`delete`/`clear` are used. -/
abbrev Cache := List (String × SizeEntry)

/-- Model of `sizeCache.get(path)`. -/
def cacheGet (c : Cache) (k : String) : Option SizeEntry :=
  (c.find? (fun e => e.1 == k)).map (·.2)

/-- Model of `sizeCache.delete(path)`. -/
def cacheDelete (c : Cache) (k : String) : Cache :=
  c.filter (fun e => e.1 != k)

/-- Model of `sizeCache.set(path, v)`. -/
def cacheSet (c : Cache) (k : String) (v : SizeEntry) : Cache :=
  (k, v) :: cacheDelete c k

/-! ## Ignore filter and scanner (src/scanner.ts) -/

/-- The filesystem as seen through `stat`/`readdir`: a file with a size;
a directory with an mtime, a readability flag (`readdir` throws on an
unreadable directory) and an ordered entry list (the order `readdir`
returns); or an entry whose `stat` throws (vanished/permission). -/
inductive FS where
  | file (size : Nat)
  | dir (mtime : Nat) (readable : Bool) (entries : List (String × FS))
  | broken

/-- The `DirNode` record (src/types.ts): `children` is `undefined` for files and a
(possibly empty) list for directories. -/
inductive DirNode where
  | mk (name : String) (path : String) (size : Nat) (isDirectory : Bool)
       (depth : Nat) (children : Option (List DirNode))
deriving Repr

def DirNode.name : DirNode → String | .mk n _ _ _ _ _ => n
def DirNode.path : DirNode → String | .mk _ p _ _ _ _ => p
def DirNode.size : DirNode → Nat | .mk _ _ s _ _ _ => s
def DirNode.isDirectory : DirNode → Bool | .mk _ _ _ d _ _ => d
def DirNode.depth : DirNode → Nat | .mk _ _ _ _ d _ => d
def DirNode.children : DirNode → Option (List DirNode) | .mk _ _ _ _ _ c => c

/-- The children list of a node, empty for files. -/
def childList (n : DirNode) : List DirNode := n.children.getD []

/-- The comparator `(a, b) => b.size - a.size`: `a` precedes `b` when the
comparator is non-positive, i.e. `b.size ≤ a.size`. -/
def sizeGe (a b : DirNode) : Prop := b.size ≤ a.size

instance : DecidableRel sizeGe := fun a b => Nat.decLe b.size a.size
instance : IsTotal DirNode sizeGe := ⟨fun a b => Nat.le_total b.size a.size⟩
instance : IsTrans DirNode sizeGe := ⟨fun _ _ _ hab hbc => Nat.le_trans hbc hab⟩

/-- Model of `children.sort((a, b) => b.size - a.size)`: a stable sort descending
by size (ES2019 requires `Array.prototype.sort` to be stable). -/
def sortChildren (l : List DirNode) : List DirNode := List.insertionSort sizeGe l

/-- Scan options. `useCache` is `shouldUseCache = useCache && !onSnapshot`
from `scanDirectory`; the progress/snapshot callbacks themselves are pure
observers of the traversal and do not influence the resulting tree, so
they are not part of the tree-building model (their generation gating is
modelled separately with the server state). -/
structure ScanOpts where
  maxDepth : Nat
  ignore : List String
  useCache : Bool

mutual
/-- The inner `scan(path, depth)` of `scanDirectory` (scanner.ts).
`none` models a thrown error (root `stat` failure); per-entry errors are
caught in `scanEntries`. The cache is threaded in traversal order. -/
def scan (o : ScanOpts) (fs : FS) (path : String) (depth : Nat) (cache : Cache) :
    Option (DirNode × Cache) :=
  match fs with
  | .broken => none
  | .file sz => some (.mk (baseName path) path sz false depth none, cache)
  | .dir mtime readable entries =>
    let hit : Option Nat :=
      if o.useCache then
        match cacheGet cache path with
        | some e => if e.mtime = mtime then some e.size else none
        | none => none
      else none
    match hit with
    | some csize => some (.mk (baseName path) path csize true depth (some []), cache)
    | none =>
      let res : List DirNode × Nat × Cache :=
        if depth < o.maxDepth ∧ readable then scanEntries o entries path depth cache
        else ([], 0, cache)
      some (.mk (baseName path) path res.2.1 true depth (some (sortChildren res.1)),
            cacheSet res.2.2 path ⟨res.2.1, mtime⟩)

/-- The `for (const entry of entries)` loop: skip ignored entries, scan
the rest, drop entries whose scan throws, accumulate nodes and sizes. -/
def scanEntries (o : ScanOpts) (entries : List (String × FS)) (path : String)
    (depth : Nat) (cache : Cache) : List DirNode × Nat × Cache :=
  match entries with
  | [] => ([], 0, cache)
  | (entry, child) :: rest =>
    if shouldIgnore entry o.ignore then scanEntries o rest path depth cache
    else
      match scan o child (joinPath path entry) (depth + 1) cache with
      | none => scanEntries o rest path depth cache
      | some (node, cache1) =>
        let res := scanEntries o rest path depth cache1
        (node :: res.1, node.size + res.2.1, res.2.2)
end

/-- Model of `scanDirectory(rootPath, options)`: starts the recursion at depth 0
on the resolved absolute root path (`resolve` is modelled as taking the
already-absolute path). -/
def scanDirectory (o : ScanOpts) (fs : FS) (absolutePath : String) (cache : Cache) :
    Option (DirNode × Cache) :=
  scan o fs absolutePath 0 cache

/-! ## Tree predicates (the properties the claims speak about) -/

/-- Sum of the sizes of a list of nodes. -/
def sumSizes (l : List DirNode) : Nat := (l.map DirNode.size).sum

/-- Adjacent-pairs check for a boolean relation. -/
def sortedByB (r : DirNode → DirNode → Bool) : List DirNode → Bool
  | [] => true
  | [_] => true
  | a :: b :: rest => r a b && sortedByB r (b :: rest)

mutual
/-- Whether `p` holds at every node of the tree. -/
def allNodesB (p : DirNode → Bool) : DirNode → Bool
  | .mk nm pa sz dir dep cs => p (.mk nm pa sz dir dep cs) && allNodesOptB p cs

def allNodesOptB (p : DirNode → Bool) : Option (List DirNode) → Bool
  | none => true
  | some l => allNodesListB p l

def allNodesListB (p : DirNode → Bool) : List DirNode → Bool
  | [] => true
  | c :: rest => allNodesB p c && allNodesListB p rest
end

/-- The claim-C1 invariant at one node: a directory's size is the sum of its
children's sizes (files are unconstrained). -/
def sizeNodeOk (n : DirNode) : Bool :=
  match n.children with
  | none => true
  | some cs => n.size == sumSizes cs

/-- The claim-C1 invariant: recursively, every directory's size is the sum of
its children's sizes. -/
def sizeOkTree : DirNode → Bool := allNodesB sizeNodeOk

/-- A node's children are sorted descending by size. -/
def sortNodeOk (n : DirNode) : Bool :=
  sortedByB (fun a b => decide (b.size ≤ a.size)) (childList n)

/-- C4 (amended): every directory's children are sorted descending by
size. -/
def sortedTree : DirNode → Bool := allNodesB sortNodeOk

/-- Lexicographic character-wise comparison, the order "name ascending"
refers to. -/
def charListLe : List Char → List Char → Bool
  | [], _ => true
  | _ :: _, [] => false
  | a :: as, b :: bs => if a = b then charListLe as bs else decide (a < b)

/-- The name order "ascending" used by the claimed tie-break. -/
def strLeB (a b : String) : Bool := charListLe a.data b.data

/-- C4 as claimed: descending by size with ties broken by name
ascending. -/
def specSortNodeOk (n : DirNode) : Bool :=
  sortedByB (fun a b => decide (b.size < a.size) ||
    (a.size == b.size && strLeB a.name b.name)) (childList n)

/-- C4 as claimed, over the whole tree. -/
def specSortedTree : DirNode → Bool := allNodesB specSortNodeOk

/-- No child of this node has a name matching an ignore pattern. -/
def ignoreNodeOk (patterns : List String) (n : DirNode) : Bool :=
  (childList n).all fun c => !(shouldIgnore c.name patterns)

/-- C6 (amended): no node below the root has a name matching an ignore
pattern. -/
def ignoreOkTree (patterns : List String) : DirNode → Bool :=
  allNodesB (ignoreNodeOk patterns)

/-- C5: every node's depth is at most `maxD`. -/
def depthLeTree (maxD : Nat) : DirNode → Bool :=
  allNodesB (fun n => decide (n.depth ≤ maxD))

/-- C5: a node at the depth boundary has no children. -/
def boundaryOkTree (maxD : Nat) : DirNode → Bool :=
  allNodesB (fun n => decide (n.depth < maxD) || (childList n).isEmpty)

/-- C5: a directory at the depth boundary reports size 0. -/
def boundaryZeroTree (maxD : Nat) : DirNode → Bool :=
  allNodesB (fun n => decide (n.depth < maxD) || !n.isDirectory || (n.size == 0))

/-- All the guarantees one `scan` call gives about its resulting tree
(the size-sum and boundary-size guarantees only hold when the size cache
is not consulted). -/
def ScanGood (o : ScanOpts) (t : DirNode) : Prop :=
  (o.useCache = false → sizeOkTree t = true)
  ∧ sortedTree t = true
  ∧ ignoreOkTree o.ignore t = true
  ∧ depthLeTree o.maxDepth t = true
  ∧ boundaryOkTree o.maxDepth t = true
  ∧ (o.useCache = false → boundaryZeroTree o.maxDepth t = true)

/-! ## Cache invalidation (scanner.ts `clearSizeCache`) -/

/-- One `current.split("/").slice(0, -1).join("/") || "/"` step. -/
def parentPath (s : String) : String :=
  let t := String.intercalate "/" (splitSlash s).dropLast
  if t = "" then "/" else t

/-- The `while (current !== "/")` loop of `clearSizeCache`, with explicit
fuel. Each iteration shortens `current` by one path segment (or jumps to
`"/"`), so `(splitSlash path).length` steps always reach `"/"`: the fuel
is never exhausted before the loop's own exit condition. -/
def clearLoop : Nat → String → Cache → Cache
  | 0, _, c => c
  | fuel + 1, cur, c =>
    if cur = "/" then c else clearLoop fuel (parentPath cur) (cacheDelete c cur)

/-- The set of keys the loop deletes: the path and its iterated parents,
stopping before `"/"`. -/
def clearChain : Nat → String → List String
  | 0, _ => []
  | fuel + 1, cur =>
    if cur = "/" then [] else cur :: clearChain fuel (parentPath cur)

/-- Model of `clearSizeCache(path?)` (scanner.ts): with a path, delete the path
and its parents up to (excluding) `"/"`; with no path, clear the map. -/
def clearSizeCache : Option String → Cache → Cache
  | some p, c => clearLoop (splitSlash p).length p c
  | none, _ => []

/-! ## Debounce and watcher (src/utils.ts, src/watcher.ts) -/

/-- Trace semantics of `debounce(fn, delay)` (utils.ts). The input is the
list of raw calls as `(time, args)` pairs in non-decreasing time order;
`pending` is the active `setTimeout` as `(deadline, args)`. A call
arriving strictly before the pending deadline clears and resets the
timer (losing the previous args); otherwise the pending timer has
already fired. The result is the list of `(fireTime, args)` invocations
of the wrapped `fn`; a pending timer at end of trace fires. -/
def debounceRun (delay : Nat) {α : Type} : List (Nat × α) → Option (Nat × α) → List (Nat × α)
  | [], pending =>
    match pending with
    | some f => [f]
    | none => []
  | (t, a) :: rest, pending =>
    match pending with
    | none => debounceRun delay rest (some (t + delay, a))
    | some (d, b) =>
      if t < d then debounceRun delay rest (some (t + delay, a))
      else (d, b) :: debounceRun delay rest (some (t + delay, a))

/-- A raw `fs.watch` event: `(event, filename | null)`. -/
abbrev RawEvent := String × Option String

/-- The body of the debounced callback in `startWatching` (watcher.ts):
invalidate the cache for `` `${absolutePath}/${filename}` `` (or
everything when `filename` is null), then call the user callback. -/
def burstInvalidate (absolutePath : String) (filename : Option String) (c : Cache) : Cache :=
  match filename with
  | some f => clearSizeCache (some (absolutePath ++ "/" ++ f)) c
  | none => clearSizeCache none c

/-- Run the debounced burst handler over each fired invocation,
threading the cache and logging the `callback(event, filename)` calls. -/
def runBursts (absolutePath : String) :
    List (Nat × RawEvent) → Cache → Cache × List RawEvent
  | [], c => (c, [])
  | (_, ev, fn) :: rest, c =>
    let c1 := burstInvalidate absolutePath fn c
    let r := runBursts absolutePath rest c1
    (r.1, (ev, fn) :: r.2)

/-- The observable behaviour of `startWatching` on a trace of raw filesystem
events: debounce them, then apply the burst handler to each firing. -/
def watcherRun (delay : Nat) (absolutePath : String)
    (events : List (Nat × RawEvent)) (c : Cache) : Cache × List RawEvent :=
  runBursts absolutePath (debounceRun delay events none) c

/-! ## Server scan sequencing (HTTP server, `performScan`) -/

/-- An SSE event as broadcast by the server. -/
inductive SSEEv where
  | scanning (progress : Nat)
  | snapshot (tree : DirNode)
  | full (tree : DirNode)
  | error (msg : String)
deriving Repr

/-- The server's shared mutable state: the generation counter, the
current tree, the broadcast log, and the scanner's module-level size
cache (shared by all in-flight scans). -/
structure ServerState where
  scanGeneration : Nat
  currentTree : Option DirNode
  events : List SSEEv
  cache : Cache

/-- Model of `broadcast(event)`. -/
def broadcast (e : SSEEv) (s : ServerState) : ServerState :=
  { s with events := s.events ++ [e] }

/-- The start of `performScan`: broadcast `scanning 0`, increment the
generation, capture it. Returns the new state and the captured
`currentGeneration`. -/
def beginScan (s : ServerState) : ServerState × Nat :=
  let s1 := broadcast (.scanning 0) s
  let s2 := { s1 with scanGeneration := s1.scanGeneration + 1 }
  (s2, s2.scanGeneration)

/-- The `onProgress` callback of `performScan`: dropped when the captured
generation is stale; otherwise broadcast subject to the wall-clock
throttle (`throttleOpen` abstracts `now - lastProgressAt >= 200`). -/
def onProgressCb (captured count : Nat) (throttleOpen : Bool) (s : ServerState) : ServerState :=
  if captured ≠ s.scanGeneration then s
  else if throttleOpen then broadcast (.scanning count) s else s

/-- The `onSnapshot` callback of `performScan`, same gating. -/
def onSnapshotCb (captured : Nat) (tree : DirNode) (throttleOpen : Bool) (s : ServerState) : ServerState :=
  if captured ≠ s.scanGeneration then s
  else if throttleOpen then broadcast (.snapshot tree) s else s

/-- A `sizeCache.set` performed by a running scan: the scanner writes to
the shared cache with no generation check. -/
def scanCacheWrite (path : String) (e : SizeEntry) (s : ServerState) : ServerState :=
  { s with cache := cacheSet s.cache path e }

/-- Completion of `performScan`'s `await scanDirectory(...)`: the result
is assigned to `currentTree` unconditionally; only the `full` broadcast
is generation-guarded. -/
def completeScan (captured : Nat) (tree : DirNode) (s : ServerState) : ServerState :=
  let s1 := { s with currentTree := some tree }
  if captured = s1.scanGeneration then broadcast (.full tree) s1 else s1

/-! ## Front-end reconciliation (sunburst renderer: `buildZoomStack`,
`applyTreeUpdate`) -/

mutual
/-- The recursive `walk` inside `buildZoomStack`: push the node, succeed
on an exact path match, otherwise descend into children whose path is a
string prefix of the target, backtracking on failure. -/
def walk (tp : String) : DirNode → Option (List DirNode)
  | .mk nm pa sz dir dep cs =>
    if pa = tp then some [.mk nm pa sz dir dep cs]
    else
      match walkOpt tp cs with
      | some s => some (.mk nm pa sz dir dep cs :: s)
      | none => none

def walkOpt (tp : String) : Option (List DirNode) → Option (List DirNode)
  | none => none
  | some l => walkChildren tp l

def walkChildren (tp : String) : List DirNode → Option (List DirNode)
  | [] => none
  | c :: rest =>
    if strStartsWith tp c.path then
      match walk tp c with
      | some s => some s
      | none => walkChildren tp rest
    else walkChildren tp rest
end

/-- Model of `buildZoomStack(root, targetPath)`: `[root]` for a falsy target
(null or empty string) or when the walk fails. -/
def buildZoomStack (root : DirNode) (targetPath : Option String) : List DirNode :=
  match targetPath with
  | none => [root]
  | some tp =>
    if tp = "" then [root]
    else
      match walk tp root with
      | some s => s
      | none => [root]

/-- The focus `applyTreeUpdate` ends up with: the path of the last
element of the rebuilt zoom stack (`zoomStack[zoomStack.length - 1]`).
The stack is never empty, so the default is unreachable. -/
def reanchor (root : DirNode) (previousViewPath : Option String) : String :=
  ((buildZoomStack root previousViewPath).getLastD root).path

mutual
/-- A path occurs in the tree (the set `collectPaths` builds). -/
def containsPath (tp : String) : DirNode → Bool
  | .mk _ pa _ _ _ cs => pa == tp || containsPathOpt tp cs

def containsPathOpt (tp : String) : Option (List DirNode) → Bool
  | none => false
  | some l => containsPathList tp l

def containsPathList (tp : String) : List DirNode → Bool
  | [] => false
  | c :: rest => containsPath tp c || containsPathList tp rest
end

mutual
/-- Path coherence: every child's path extends its parent's path by its
own name (true of all scanner-produced trees); `walk`'s prefix-guided
descent is only complete on such trees. -/
def wfPaths : DirNode → Bool
  | .mk _ pa _ _ _ cs => wfPathsOpt pa cs

def wfPathsOpt (pa : String) : Option (List DirNode) → Bool
  | none => true
  | some l => wfPathsList pa l

def wfPathsList (pa : String) : List DirNode → Bool
  | [] => true
  | c :: rest => (c.path == joinPath pa c.name && wfPaths c) && wfPathsList pa rest
end

/-! ## Burst hypotheses and concrete instances used in the claims -/

/-- Every event in the list arrives strictly before the deadline set by
the previous event (`prev + delay`), i.e. the whole list is one burst
inside one debounce window. -/
def withinWindow (delay : Nat) {α : Type} : Nat → List (Nat × α) → Bool
  | _, [] => true
  | prev, (t, _) :: rest => decide (t < prev + delay) && withinWindow delay t rest

/-- Scan options with caching on (`useCache && !onSnapshot` true). -/
def optsCache : ScanOpts := ⟨10, [], true⟩

/-- Scan options with caching off. -/
def optsNoCache : ScanOpts := ⟨10, [], false⟩

/-- A root directory containing one 5-byte file `a`, mtime 7. -/
def fsOneFile : FS := .dir 7 true [("a", .file 5)]

/-- The cache state after scanning `fsOneFile` at `/r`. -/
def cacheAfterFirst : Cache := [("/r", ⟨5, 7⟩)]

/-- The tree of the first (cold-cache) scan of `fsOneFile`. -/
def treeFull : DirNode := .mk "r" "/r" 5 true 0 (some [.mk "a" "/r/a" 5 false 1 none])

/-- The tree a second scan returns after a cache hit on the root:
the cached size with an empty children list. -/
def treeCached : DirNode := .mk "r" "/r" 5 true 0 (some [])

/-- Scan options with caching on and a generous depth. -/
def optsDeep : ScanOpts := ⟨5, [], true⟩

/-- Scan options with caching on and `maxDepth = 0`. -/
def optsZero : ScanOpts := ⟨0, [], true⟩

/-- A directory whose `readdir` order is `b` before `a`, both 5 bytes. -/
def fsTieOrder : FS := .dir 7 true [("b", .file 5), ("a", .file 5)]

/-- The scan result of `fsTieOrder`: the stable sort keeps `b` first. -/
def treeTie : DirNode :=
  .mk "r" "/r" 10 true 0
    (some [.mk "b" "/r/b" 5 false 1 none, .mk "a" "/r/a" 5 false 1 none])

/-- Options that ignore `node_modules`. -/
def optsIgnoreNM : ScanOpts := ⟨10, ["node_modules"], false⟩

/-- A root directory (to be scanned at path `/x/node_modules`) holding a
9-byte file. -/
def fsNMroot : FS := .dir 7 true [("x", .file 9)]

/-- The scan of `fsNMroot` rooted at `/x/node_modules`: the root and its
descendant appear although the root's name matches an ignore pattern. -/
def treeNMroot : DirNode :=
  .mk "node_modules" "/x/node_modules" 9 true 0 (some [.mk "x" "/x/node_modules/x" 9 false 1 none])

/-- A directory with the `node_modules` entry to be filtered out. -/
def fsWithNM : FS :=
  .dir 7 true [("a", .file 3), ("node_modules", .dir 7 true [("x", .file 100)])]

/-- The scan of `fsWithNM` under `optsIgnoreNM`: `node_modules` gone. -/
def treeFiltered : DirNode := .mk "r" "/r" 3 true 0 (some [.mk "a" "/r/a" 3 false 1 none])

/-- An unreadable root directory (its `readdir` throws) with content. -/
def fsUnreadableRoot : FS := .dir 5 false [("x", .file 9)]

/-- The front-end tree for the re-anchoring scenario: root `/` with the
directory `/a`; the previously focused `/a/b` no longer exists. -/
def treeAB : DirNode := .mk "" "/" 1 true 0 (some [.mk "a" "/a" 1 true 1 (some [])])

/-- A small tree result of a first scan (used as scan payloads). -/
def treeA : DirNode := .mk "r" "/r" 1 false 0 none

/-- A distinct tree result of a second scan. -/
def treeB : DirNode := .mk "r" "/r" 2 false 0 none

/-- Server run for claim C3: scan A begins (generation 1), scan B begins
(generation 2, superseding A), B completes, then A's late cache write
lands, then A completes while superseded. -/
def c3Step1 : ServerState × Nat := beginScan ⟨0, none, [], []⟩

def c3Step2 : ServerState × Nat := beginScan c3Step1.1

def c3AfterB : ServerState := completeScan c3Step2.2 treeB c3Step2.1

def c3AfterWrite : ServerState := scanCacheWrite "/r/d" ⟨3, 1⟩ c3AfterB

def c3Final : ServerState := completeScan c3Step1.2 treeA c3AfterWrite

/-- A five-event burst, all within one 300 ms debounce window. -/
def burstFive : List (Nat × RawEvent) :=
  [(0, ("change", some "a")), (1, ("change", some "b")), (2, ("rename", some "c")),
   (3, ("change", some "d")), (4, ("rename", some "e"))]

/-- A cache holding entries for several filenames under `/r`. -/
def cacheMulti : Cache := [("/r/a", ⟨1, 1⟩), ("/r/e", ⟨2, 2⟩), ("/r/x", ⟨3, 3⟩)]

/-! ## Helper lemmas: lists and split -/

theorem getLastD_cons_eq {α : Type} (x : α) (xs : List α) (d : α) :
    (x :: xs).getLastD d = xs.getLastD x := by
  cases xs <;> rfl

theorem getLastD_congr {α : Type} (l : List α) (h : l ≠ []) (d e : α) :
    l.getLastD d = l.getLastD e := by
  cases l with
  | nil => exact absurd rfl h
  | cons x xs =>
    induction xs generalizing x with
    | nil => rfl
    | cons y ys ih => simpa [getLastD_cons_eq] using ih y

theorem getLastD_mem {α : Type} (l : List α) (h : l ≠ []) (d : α) :
    l.getLastD d ∈ l := by
  cases l with
  | nil => exact absurd rfl h
  | cons x xs =>
    induction xs generalizing x with
    | nil => simp [List.getLastD]
    | cons y ys ih =>
      rw [getLastD_cons_eq, getLastD_congr (y :: ys) (by simp) x d]
      exact List.mem_cons_of_mem x (ih y (by simp))

theorem getLastD_append_right {α : Type} (l₁ l₂ : List α) (h : l₂ ≠ []) (d d' : α) :
    (l₁ ++ l₂).getLastD d = l₂.getLastD d' := by
  induction l₁ with
  | nil => exact getLastD_congr l₂ h d d'
  | cons x xs ih =>
    rw [List.cons_append, getLastD_cons_eq,
        getLastD_congr (xs ++ l₂) (by simp [List.append_eq_nil, h]) x d]
    exact ih

theorem splitChar_ne_nil (c : Char) (l : List Char) : splitChar c l ≠ [] := by
  induction l with
  | nil => simp [splitChar]
  | cons x xs ih =>
    simp only [splitChar]
    split
    · simp
    · split <;> simp

theorem splitChar_append (c : Char) (a b : List Char) :
    splitChar c (a ++ c :: b) = splitChar c a ++ splitChar c b := by
  induction a with
  | nil => simp [splitChar]
  | cons x xs ih =>
    by_cases hx : x = c
    · subst hx
      simp [splitChar, ih]
    · simp only [List.cons_append, splitChar, if_neg hx, List.append_eq]
      rw [ih]
      cases hxs : splitChar c xs with
      | nil => exact absurd hxs (splitChar_ne_nil c xs)
      | cons h t => simp

theorem splitChar_chunk_no_sep (c : Char) (l : List Char) :
    ∀ chunk ∈ splitChar c l, c ∉ chunk := by
  induction l with
  | nil =>
    intro chunk hc
    simp [splitChar] at hc
    simp [hc]
  | cons x xs ih =>
    intro chunk hc
    simp only [splitChar] at hc
    by_cases hx : x = c
    · rw [if_pos hx] at hc
      rcases List.mem_cons.mp hc with h | h
      · simp [h]
      · exact ih chunk h
    · rw [if_neg hx] at hc
      cases hxs : splitChar c xs with
      | nil => exact absurd hxs (splitChar_ne_nil c xs)
      | cons hd tl =>
        rw [hxs] at hc
        rcases List.mem_cons.mp hc with h | h
        · subst h
          intro hmem
          rcases List.mem_cons.mp hmem with h' | h'
          · exact hx h'.symm
          · exact ih hd (by rw [hxs]; exact List.mem_cons_self hd tl) h'
        · exact ih chunk (by rw [hxs]; exact List.mem_cons_of_mem hd h)

theorem splitChar_no_sep (c : Char) (l : List Char) (h : c ∉ l) :
    splitChar c l = [l] := by
  induction l with
  | nil => rfl
  | cons x xs ih =>
    have hx : x ≠ c := fun he => h (he ▸ List.mem_cons_self x xs)
    have hxs : c ∉ xs := fun hm => h (List.mem_cons_of_mem x hm)
    simp [splitChar, if_neg hx, ih hxs]

/-! ## Helper lemmas: path strings -/

theorem splitSlash_ne_nil (s : String) : splitSlash s ≠ [] := by
  unfold splitSlash
  intro h
  exact splitChar_ne_nil '/' s.data (List.map_eq_nil_iff.mp h)

theorem splitSlash_append_sep (p e : String) :
    splitSlash (p ++ "/" ++ e) = splitSlash p ++ splitSlash e := by
  unfold splitSlash
  have hdata : (p ++ "/" ++ e).data = p.data ++ '/' :: e.data := by
    rw [String.data_append, String.data_append, List.append_assoc]
    rfl
  rw [hdata, splitChar_append, List.map_append]

theorem lastSeg_joinPath (p e : String) : lastSeg (joinPath p e) = lastSeg e := by
  unfold joinPath
  split
  · next hp =>
    subst hp
    unfold lastSeg
    have hdata : (("/" : String) ++ e).data = '/' :: e.data := by
      rw [String.data_append]
      rfl
    unfold splitSlash
    rw [hdata]
    rw [show splitChar '/' ('/' :: e.data) = [] :: splitChar '/' e.data from by simp [splitChar],
        List.map_cons, getLastD_cons_eq]
  · unfold lastSeg
    rw [splitSlash_append_sep]
    exact getLastD_append_right _ _ (splitSlash_ne_nil e) _ _

theorem lastSeg_no_sep (s : String) : '/' ∉ (lastSeg s).data := by
  have hmem : lastSeg s ∈ splitSlash s := getLastD_mem _ (splitSlash_ne_nil s) _
  unfold splitSlash at hmem
  rcases List.mem_map.mp hmem with ⟨chunk, hc, heq⟩
  have := splitChar_chunk_no_sep '/' s.data chunk hc
  rw [← heq]
  exact this

theorem lastSeg_idem (s : String) : lastSeg (lastSeg s) = lastSeg s := by
  conv_lhs => rw [lastSeg, splitSlash]
  rw [splitChar_no_sep '/' _ (lastSeg_no_sep s)]
  rfl

theorem shouldIgnore_lastSeg (s : String) (pats : List String) :
    shouldIgnore (lastSeg s) pats = shouldIgnore s pats := by
  unfold shouldIgnore
  rw [lastSeg_idem]

theorem baseName_eq_lastSeg (s : String) : baseName s = lastSeg s :=
  getLastD_congr _ (splitSlash_ne_nil s) _ _

theorem shouldIgnore_baseName_joinPath (p e : String) (pats : List String) :
    shouldIgnore (baseName (joinPath p e)) pats = shouldIgnore e pats := by
  rw [baseName_eq_lastSeg, shouldIgnore_lastSeg, ← shouldIgnore_lastSeg e,
      ← lastSeg_joinPath p e, shouldIgnore_lastSeg]

theorem data_prefix_joinPath (p e : String) : p.data <+: (joinPath p e).data := by
  unfold joinPath
  split
  · next h =>
    subst h
    rw [String.data_append]
    exact List.prefix_append _ _
  · rw [String.data_append, String.data_append]
    rw [List.append_assoc]
    exact List.prefix_append _ _

/-! ## Helper lemmas: cache and invalidation -/

theorem cacheGet_cons (e : String × SizeEntry) (rest : Cache) (k' : String) :
    cacheGet (e :: rest) k' = if e.1 = k' then some e.2 else cacheGet rest k' := by
  by_cases h : e.1 = k'
  · simp [cacheGet, List.find?_cons, h]
  · simp [cacheGet, List.find?_cons, h]

theorem cacheGet_delete (c : Cache) (k k' : String) :
    cacheGet (cacheDelete c k) k' = if k' = k then none else cacheGet c k' := by
  induction c with
  | nil => simp [cacheDelete, cacheGet]
  | cons e rest ih =>
    by_cases hek : e.1 = k
    · have hbeq : ¬((e.1 != k) = true) := by simp [hek]
      have hfilter : cacheDelete (e :: rest) k = cacheDelete rest k := by
        unfold cacheDelete
        rw [List.filter_cons, if_neg hbeq]
      rw [hfilter, ih, cacheGet_cons]
      by_cases hk' : k' = k
      · simp [hk']
      · have hne : ¬ e.1 = k' := fun hc => hk' (by rw [← hc, hek])
        simp [hk', hne]
    · have hbne : (e.1 != k) = true := by simp [hek]
      have hfilter : cacheDelete (e :: rest) k = e :: cacheDelete rest k := by
        unfold cacheDelete
        rw [List.filter_cons, if_pos hbne]
      rw [hfilter, cacheGet_cons, cacheGet_cons, ih]
      by_cases hek' : e.1 = k'
      · have hk' : ¬(k' = k) := fun h => hek (h ▸ hek')
        simp [hek', hk']
      · simp [hek']

theorem clearLoop_get (f : Nat) : ∀ (s : String) (c : Cache) (k : String),
    cacheGet (clearLoop f s c) k =
      if k ∈ clearChain f s then none else cacheGet c k := by
  induction f with
  | zero => simp [clearLoop, clearChain]
  | succ f ih =>
    intro s c k
    by_cases hs : s = "/"
    · simp [clearLoop, clearChain, hs]
    · simp only [clearLoop, clearChain, if_neg hs]
      rw [ih]
      by_cases hk : k ∈ clearChain f (parentPath s)
      · simp [hk, List.mem_cons]
      · rw [if_neg hk, cacheGet_delete]
        by_cases hks : k = s
        · simp [hks, List.mem_cons]
        · simp [hks, List.mem_cons, hk]

theorem root_not_mem_clearChain (f : Nat) : ∀ s : String, "/" ∉ clearChain f s := by
  induction f with
  | zero => simp [clearChain]
  | succ f ih =>
    intro s
    by_cases hs : s = "/"
    · simp [clearChain, hs]
    · simp only [clearChain, if_neg hs, List.mem_cons]
      rintro (h | h)
      · exact hs h.symm
      · exact ih _ h

/-! ## Helper lemmas: tree predicates -/

theorem allNodesB_eq (p : DirNode → Bool) (n : DirNode) :
    allNodesB p n = (p n && allNodesListB p (childList n)) := by
  match n with
  | .mk nm pa sz dir dep cs =>
    cases cs <;>
      simp [allNodesB, allNodesOptB, childList, DirNode.children, allNodesListB]

theorem allNodesListB_iff (p : DirNode → Bool) (l : List DirNode) :
    allNodesListB p l = true ↔ ∀ c ∈ l, allNodesB p c = true := by
  induction l with
  | nil => simp [allNodesListB]
  | cons c rest ih => simp [allNodesListB, ih]

theorem sortedByB_of_pairwise :
    ∀ l : List DirNode, List.Pairwise sizeGe l →
      sortedByB (fun a b => decide (b.size ≤ a.size)) l = true
  | [], _ => rfl
  | [_], _ => rfl
  | a :: b :: t, h => by
    rw [List.pairwise_cons] at h
    have hab : sizeGe a b := h.1 b (List.mem_cons_self b t)
    simp only [sortedByB, Bool.and_eq_true, decide_eq_true_eq]
    exact ⟨hab, sortedByB_of_pairwise (b :: t) h.2⟩

theorem mem_sortChildren (l : List DirNode) (x : DirNode) :
    x ∈ sortChildren l ↔ x ∈ l :=
  (List.perm_insertionSort sizeGe l).mem_iff

theorem sumSizes_sortChildren (l : List DirNode) :
    sumSizes (sortChildren l) = sumSizes l :=
  ((List.perm_insertionSort sizeGe l).map DirNode.size).sum_eq

theorem sortChildren_sortedByB (l : List DirNode) :
    sortedByB (fun a b => decide (b.size ≤ a.size)) (sortChildren l) = true :=
  sortedByB_of_pairwise _ (List.sorted_insertionSort sizeGe l)

/-! ## Helper lemmas: the scanner -/

theorem scan_shape (o : ScanOpts) (fs : FS) (path : String) (depth : Nat) (cache : Cache)
    (t : DirNode) (c' : Cache) (h : scan o fs path depth cache = some (t, c')) :
    t.name = baseName path ∧ t.path = path ∧ t.depth = depth := by
  cases fs with
  | broken => simp [scan] at h
  | file sz =>
    simp only [scan, Option.some.injEq, Prod.mk.injEq] at h
    obtain ⟨h1, -⟩ := h
    subst h1
    exact ⟨rfl, rfl, rfl⟩
  | dir m r es =>
    simp only [scan] at h
    split at h
    · simp only [Option.some.injEq, Prod.mk.injEq] at h
      obtain ⟨h1, -⟩ := h
      subst h1
      exact ⟨rfl, rfl, rfl⟩
    · simp only [Option.some.injEq, Prod.mk.injEq] at h
      obtain ⟨h1, -⟩ := h
      subst h1
      exact ⟨rfl, rfl, rfl⟩

theorem fs_subterm_lt (m : Nat) (r : Bool) (es : List (String × FS))
    (e : String × FS) (he : e ∈ es) : sizeOf e.2 < sizeOf (FS.dir m r es) := by
  have h1 := List.sizeOf_lt_of_mem he
  have h2 : sizeOf e.2 < sizeOf e := by
    obtain ⟨nm, fs⟩ := e
    simp only [Prod.mk.sizeOf_spec]
    omega
  simp only [FS.dir.sizeOf_spec]
  omega

theorem fs_strong_ind (P : FS → Prop)
    (h : ∀ fs : FS, (∀ m r es, fs = FS.dir m r es → ∀ e ∈ es, P e.2) → P fs)
    (fs : FS) : P fs := by
  generalize hn : sizeOf fs = n
  induction n using Nat.strong_induction_on generalizing fs with
  | _ n ih =>
    subst hn
    apply h
    intro m r es hfs e he
    exact ih (sizeOf e.2) (by rw [hfs]; exact fs_subterm_lt m r es e he) e.2 rfl

theorem ScanGood_file (o : ScanOpts) (nm pa : String) (sz dep : Nat)
    (hdep : dep ≤ o.maxDepth) : ScanGood o (.mk nm pa sz false dep none) := by
  refine ⟨fun _ => ?_, ?_, ?_, ?_, ?_, fun _ => ?_⟩ <;>
    simp [sizeOkTree, sortedTree, ignoreOkTree, depthLeTree, boundaryOkTree, boundaryZeroTree,
          allNodesB, allNodesOptB, sizeNodeOk, sortNodeOk, ignoreNodeOk, childList,
          DirNode.children, DirNode.depth, DirNode.isDirectory, sortedByB, hdep]

theorem ScanGood_node (o : ScanOpts) (nm pa : String) (sz dep : Nat) (l : List DirNode)
    (hsz : o.useCache = false → sz = sumSizes l)
    (hsort : sortedByB (fun a b => decide (b.size ≤ a.size)) l = true)
    (hmem : ∀ c ∈ l, ScanGood o c ∧ shouldIgnore c.name o.ignore = false)
    (hdep : dep ≤ o.maxDepth)
    (hbound : dep < o.maxDepth ∨ l = [])
    (hzero : o.useCache = false → (dep < o.maxDepth ∨ sz = 0)) :
    ScanGood o (.mk nm pa sz true dep (some l)) := by
  refine ⟨?_, ?_, ?_, ?_, ?_, ?_⟩
  · intro h0
    unfold sizeOkTree
    rw [allNodesB_eq, Bool.and_eq_true]
    constructor
    · simp [sizeNodeOk, DirNode.children, DirNode.size, hsz h0]
    · exact (allNodesListB_iff _ _).mpr (fun c hc => (hmem c hc).1.1 h0)
  · unfold sortedTree
    rw [allNodesB_eq, Bool.and_eq_true]
    constructor
    · simpa [sortNodeOk, childList, DirNode.children] using hsort
    · exact (allNodesListB_iff _ _).mpr (fun c hc => (hmem c hc).1.2.1)
  · unfold ignoreOkTree
    rw [allNodesB_eq, Bool.and_eq_true]
    constructor
    · simp only [ignoreNodeOk, childList, DirNode.children, Option.getD_some, List.all_eq_true]
      intro c hc
      simp [(hmem c hc).2]
    · exact (allNodesListB_iff _ _).mpr (fun c hc => (hmem c hc).1.2.2.1)
  · unfold depthLeTree
    rw [allNodesB_eq, Bool.and_eq_true]
    constructor
    · simp [DirNode.depth, hdep]
    · exact (allNodesListB_iff _ _).mpr (fun c hc => (hmem c hc).1.2.2.2.1)
  · unfold boundaryOkTree
    rw [allNodesB_eq, Bool.and_eq_true]
    constructor
    · rcases hbound with h | h
      · simp [DirNode.depth, h]
      · simp [childList, DirNode.children, h]
    · exact (allNodesListB_iff _ _).mpr (fun c hc => (hmem c hc).1.2.2.2.2.1)
  · intro h0
    unfold boundaryZeroTree
    rw [allNodesB_eq, Bool.and_eq_true]
    constructor
    · rcases hzero h0 with h | h
      · simp [DirNode.depth, h]
      · simp [DirNode.size, DirNode.isDirectory, DirNode.depth, h]
    · exact (allNodesListB_iff _ _).mpr (fun c hc => (hmem c hc).1.2.2.2.2.2 h0)

theorem scanEntries_spec (o : ScanOpts) (path : String) (depth : Nat) :
    ∀ (entries : List (String × FS)) (cache : Cache),
    (∀ e ∈ entries, ∀ (p : String) (c : Cache) (t : DirNode) (c' : Cache),
        scan o e.2 p (depth + 1) c = some (t, c') → ScanGood o t) →
    (scanEntries o entries path depth cache).2.1
        = sumSizes (scanEntries o entries path depth cache).1
    ∧ ∀ n ∈ (scanEntries o entries path depth cache).1,
        ScanGood o n ∧ n.depth = depth + 1 ∧ shouldIgnore n.name o.ignore = false := by
  intro entries
  induction entries with
  | nil =>
    intro cache _
    constructor
    · simp [scanEntries, sumSizes]
    · intro n hn
      simp [scanEntries] at hn
  | cons e rest ih =>
    intro cache hyp
    obtain ⟨entry, child⟩ := e
    have hyprest : ∀ e ∈ rest, ∀ (p : String) (c : Cache) (t : DirNode) (c' : Cache),
        scan o e.2 p (depth + 1) c = some (t, c') → ScanGood o t :=
      fun e he => hyp e (List.mem_cons_of_mem _ he)
    by_cases hig : shouldIgnore entry o.ignore = true
    · have heq : scanEntries o ((entry, child) :: rest) path depth cache
          = scanEntries o rest path depth cache := by
        simp only [scanEntries]
        rw [if_pos hig]
      rw [heq]
      exact ih cache hyprest
    · cases hscan : scan o child (joinPath path entry) (depth + 1) cache with
      | none =>
        have heq : scanEntries o ((entry, child) :: rest) path depth cache
            = scanEntries o rest path depth cache := by
          simp only [scanEntries]
          rw [if_neg hig, hscan]
        rw [heq]
        exact ih cache hyprest
      | some pr =>
        obtain ⟨node, cache1⟩ := pr
        have heq : scanEntries o ((entry, child) :: rest) path depth cache
            = (node :: (scanEntries o rest path depth cache1).1,
               node.size + (scanEntries o rest path depth cache1).2.1,
               (scanEntries o rest path depth cache1).2.2) := by
          simp only [scanEntries]
          rw [if_neg hig, hscan]
        have hgood : ScanGood o node :=
          hyp (entry, child) (List.mem_cons_self _ _) _ _ _ _ hscan
        have hshape := scan_shape o child (joinPath path entry) (depth + 1) cache node cache1 hscan
        have hig' : shouldIgnore entry o.ignore = false := by
          simpa using hig
        have hname : shouldIgnore node.name o.ignore = false := by
          rw [hshape.1, shouldIgnore_baseName_joinPath]
          exact hig'
        obtain ⟨ihsum, ihmem⟩ := ih cache1 hyprest
        rw [heq]
        constructor
        · simp only [sumSizes, List.map_cons, List.sum_cons]
          rw [ihsum]
          rfl
        · intro n hn
          rcases List.mem_cons.mp hn with h | h
          · subst h
            exact ⟨hgood, hshape.2.2, hname⟩
          · exact ihmem n h

/-- Master invariant theorem: every tree a `scan` call returns satisfies
all the structural guarantees in `ScanGood`. -/
theorem scan_good (o : ScanOpts) (fs : FS) : ∀ (path : String) (depth : Nat) (cache : Cache)
    (t : DirNode) (c' : Cache), depth ≤ o.maxDepth →
    scan o fs path depth cache = some (t, c') → ScanGood o t := by
  induction fs using fs_strong_ind with
  | _ fs ihfs =>
    intro path depth cache t c' hdep h
    cases fs with
    | broken => simp [scan] at h
    | file sz =>
      simp only [scan, Option.some.injEq, Prod.mk.injEq] at h
      obtain ⟨h1, -⟩ := h
      subst h1
      exact ScanGood_file o _ _ _ _ hdep
    | dir m r es =>
      simp only [scan] at h
      split at h
      · -- cache hit branch
        next csize heq =>
        have huc : o.useCache = true := by
          by_cases hc : o.useCache = true
          · exact hc
          · rw [if_neg hc] at heq
            exact absurd heq (by simp)
        simp only [Option.some.injEq, Prod.mk.injEq] at h
        obtain ⟨h1, -⟩ := h
        subst h1
        refine ScanGood_node o _ _ _ _ [] ?_ rfl (by simp) hdep (Or.inr rfl) ?_
        · intro h0
          rw [h0] at huc
          cases huc
        · intro h0
          rw [h0] at huc
          cases huc
      · -- cache miss branch
        by_cases hcond : depth < o.maxDepth ∧ r = true
        · rw [if_pos hcond] at h
          have hdep1 : depth + 1 ≤ o.maxDepth := hcond.1
          have ihes : ∀ e ∈ es, ∀ (p : String) (c : Cache) (t2 : DirNode) (c2 : Cache),
              scan o e.2 p (depth + 1) c = some (t2, c2) → ScanGood o t2 :=
            fun e he p c t2 c2 hsc =>
              ihfs m r es rfl e he p (depth + 1) c t2 c2 hdep1 hsc
          obtain ⟨hsum, hmem⟩ := scanEntries_spec o path depth es cache ihes
          simp only [Option.some.injEq, Prod.mk.injEq] at h
          obtain ⟨h1, -⟩ := h
          subst h1
          refine ScanGood_node o _ _ _ _ _ ?_ (sortChildren_sortedByB _) ?_ hdep
            (Or.inl hcond.1) (fun _ => Or.inl hcond.1)
          · intro h0
            rw [hsum, sumSizes_sortChildren]
          · intro cnode hc
            have hc' := (mem_sortChildren _ cnode).mp hc
            exact ⟨(hmem cnode hc').1, (hmem cnode hc').2.2⟩
        · rw [if_neg hcond] at h
          simp only [Option.some.injEq, Prod.mk.injEq] at h
          obtain ⟨h1, -⟩ := h
          subst h1
          refine ScanGood_node o _ _ _ _ _ (fun _ => rfl) ?_
            (fun c hc => absurd hc (List.not_mem_nil c)) hdep
            (Or.inr ?_) (fun _ => Or.inr rfl)
          · exact sortChildren_sortedByB []
          · rfl

/-- Removing an entry whose `stat` throws does not change a directory
scan at all: the entry is skipped before any count, cache write or
aggregation. -/
theorem scanEntries_broken_frame (o : ScanOpts) (path : String) (depth : Nat) :
    ∀ (pre : List (String × FS)) (nm : String) (post : List (String × FS)) (cache : Cache),
    scanEntries o (pre ++ (nm, FS.broken) :: post) path depth cache
      = scanEntries o (pre ++ post) path depth cache := by
  intro pre
  induction pre with
  | nil =>
    intro nm post cache
    simp only [List.nil_append, scanEntries]
    by_cases hig : shouldIgnore nm o.ignore = true
    · rw [if_pos hig]
    · rw [if_neg hig]
      rfl
  | cons e rest ih =>
    intro nm post cache
    obtain ⟨entry, child⟩ := e
    simp only [List.cons_append, scanEntries]
    by_cases hig : shouldIgnore entry o.ignore = true
    · rw [if_pos hig, if_pos hig]
      exact ih nm post cache
    · rw [if_neg hig, if_neg hig]
      cases hscan : scan o child (joinPath path entry) (depth + 1) cache with
      | none => exact ih nm post cache
      | some pr =>
        obtain ⟨node, cache1⟩ := pr
        simp only [List.append_eq]
        rw [ih nm post cache1]

/-! ## Helper lemmas: the front-end walk -/

theorem dirnode_subterm_lt (nm pa : String) (sz : Nat) (dir : Bool) (dep : Nat)
    (l : List DirNode) (c : DirNode) (hc : c ∈ l) :
    sizeOf c < sizeOf (DirNode.mk nm pa sz dir dep (some l)) := by
  have h1 := List.sizeOf_lt_of_mem hc
  simp only [DirNode.mk.sizeOf_spec, Option.some.sizeOf_spec]
  omega

theorem dirnode_strong_ind (P : DirNode → Prop)
    (h : ∀ n : DirNode, (∀ l, n.children = some l → ∀ c ∈ l, P c) → P n)
    (n : DirNode) : P n := by
  generalize hn : sizeOf n = k
  induction k using Nat.strong_induction_on generalizing n with
  | _ k ih =>
    subst hn
    apply h
    intro l hl c hc
    have hlt : sizeOf c < sizeOf n := by
      obtain ⟨nm, pa, sz, dir, dep, cs⟩ := n
      simp only [DirNode.children] at hl
      subst hl
      exact dirnode_subterm_lt nm pa sz dir dep l c hc
    exact ih (sizeOf c) hlt c rfl

theorem walkChildren_some (tp : String) :
    ∀ (l : List DirNode) (s : List DirNode), walkChildren tp l = some s →
      ∃ c ∈ l, walk tp c = some s := by
  intro l
  induction l with
  | nil =>
    intro s h
    simp [walkChildren] at h
  | cons c rest ih =>
    intro s h
    simp only [walkChildren] at h
    by_cases hpre : strStartsWith tp c.path = true
    · rw [if_pos hpre] at h
      cases hw : walk tp c with
      | some s2 =>
        rw [hw] at h
        exact ⟨c, List.mem_cons_self c rest, by rw [hw, Option.some.inj h]⟩
      | none =>
        rw [hw] at h
        obtain ⟨c2, hc2, hw2⟩ := ih s h
        exact ⟨c2, List.mem_cons_of_mem c hc2, hw2⟩
    · rw [if_neg hpre] at h
      obtain ⟨c2, hc2, hw2⟩ := ih s h
      exact ⟨c2, List.mem_cons_of_mem c hc2, hw2⟩

theorem walk_getLast (tp : String) (n : DirNode) :
    ∀ (s : List DirNode), walk tp n = some s →
      s ≠ [] ∧ ∀ d : DirNode, (s.getLastD d).path = tp := by
  induction n using dirnode_strong_ind with
  | _ n ihn =>
    intro s h
    obtain ⟨nm, pa, sz, dir, dep, cs⟩ := n
    simp only [walk] at h
    by_cases hpa : pa = tp
    · rw [if_pos hpa] at h
      have hs := Option.some.inj h
      subst hs
      refine ⟨by simp, ?_⟩
      intro d
      simp [List.getLastD, DirNode.path, hpa]
    · rw [if_neg hpa] at h
      split at h
      · next s0 hw0 =>
        have hs := Option.some.inj h
        cases cs with
        | none => simp [walkOpt] at hw0
        | some l =>
          simp only [walkOpt] at hw0
          obtain ⟨c, hcmem, hwc⟩ := walkChildren_some tp l s0 hw0
          have ihc := ihn l (by simp [DirNode.children]) c hcmem s0 hwc
          subst hs
          refine ⟨by simp, ?_⟩
          intro d
          rw [getLastD_cons_eq]
          exact ihc.2 _
      · exact absurd h (by simp)

theorem containsPathList_iff (tp : String) (l : List DirNode) :
    containsPathList tp l = true ↔ ∃ c ∈ l, containsPath tp c = true := by
  induction l with
  | nil => simp [containsPathList]
  | cons c rest ih => simp [containsPathList, ih]

theorem wfPathsList_iff (pa : String) (l : List DirNode) :
    wfPathsList pa l = true ↔
      ∀ c ∈ l, c.path = joinPath pa c.name ∧ wfPaths c = true := by
  induction l with
  | nil => simp [wfPathsList]
  | cons c rest ih =>
    simp only [wfPathsList, Bool.and_eq_true, ih, beq_iff_eq, List.mem_cons]
    constructor
    · rintro ⟨⟨h1, h2⟩, h3⟩ x (rfl | hx)
      · exact ⟨h1, h2⟩
      · exact h3 x hx
    · intro hall
      exact ⟨⟨(hall c (Or.inl rfl)).1, (hall c (Or.inl rfl)).2⟩,
        fun x hx => hall x (Or.inr hx)⟩

theorem walk_contains (tp : String) (n : DirNode) :
    ∀ (s : List DirNode), walk tp n = some s → containsPath tp n = true := by
  induction n using dirnode_strong_ind with
  | _ n ihn =>
    intro s h
    obtain ⟨nm, pa, sz, dir, dep, cs⟩ := n
    simp only [walk] at h
    by_cases hpa : pa = tp
    · simp [containsPath, hpa]
    · rw [if_neg hpa] at h
      split at h
      · next s0 hw0 =>
        cases cs with
        | none => simp [walkOpt] at hw0
        | some l =>
          simp only [walkOpt] at hw0
          obtain ⟨c, hcmem, hwc⟩ := walkChildren_some tp l s0 hw0
          have hc := ihn l (by simp [DirNode.children]) c hcmem s0 hwc
          simp only [containsPath, containsPathOpt, Bool.or_eq_true]
          exact Or.inr ((containsPathList_iff tp l).mpr ⟨c, hcmem, hc⟩)
      · exact absurd h (by simp)

theorem strStartsWith_eq_true_iff (s p : String) :
    strStartsWith s p = true ↔ p.data <+: s.data := by
  unfold strStartsWith
  exact List.isPrefixOf_iff_prefix

theorem contains_implies_startsWith (tp : String) (n : DirNode) :
    wfPaths n = true → containsPath tp n = true → strStartsWith tp n.path = true := by
  induction n using dirnode_strong_ind with
  | _ n ihn =>
    intro hwf hcont
    obtain ⟨nm, pa, sz, dir, dep, cs⟩ := n
    simp only [containsPath, Bool.or_eq_true, beq_iff_eq] at hcont
    rcases hcont with rfl | hcont
    · rw [strStartsWith_eq_true_iff]
      show pa.data <+: pa.data
      exact List.prefix_refl _
    · cases cs with
      | none => simp [containsPathOpt] at hcont
      | some l =>
        simp only [containsPathOpt] at hcont
        obtain ⟨c, hcmem, hc⟩ := (containsPathList_iff tp l).mp hcont
        simp only [wfPaths, wfPathsOpt] at hwf
        obtain ⟨hcpath, hcwf⟩ := (wfPathsList_iff pa l).mp hwf c hcmem
        have hpre := ihn l (by simp [DirNode.children]) c hcmem hcwf hc
        rw [strStartsWith_eq_true_iff] at hpre ⊢
        have hpj : pa.data <+: c.path.data := by
          rw [hcpath]
          exact data_prefix_joinPath pa c.name
        exact hpj.trans hpre

theorem walkChildren_of_mem (tp : String) :
    ∀ (l : List DirNode),
      (∃ c ∈ l, strStartsWith tp c.path = true ∧ ∃ s, walk tp c = some s) →
      ∃ s, walkChildren tp l = some s := by
  intro l
  induction l with
  | nil =>
    rintro ⟨c, hc, -⟩
    cases hc
  | cons c0 rest ih =>
    rintro ⟨c, hc, hpre, s, hw⟩
    rcases List.mem_cons.mp hc with rfl | hmem
    · simp only [walkChildren]
      rw [if_pos hpre, hw]
      exact ⟨s, rfl⟩
    · simp only [walkChildren]
      by_cases hpre0 : strStartsWith tp c0.path = true
      · rw [if_pos hpre0]
        cases hw0 : walk tp c0 with
        | some s0 => exact ⟨s0, rfl⟩
        | none =>
          obtain ⟨s1, hs1⟩ := ih ⟨c, hmem, hpre, s, hw⟩
          exact ⟨s1, hs1⟩
      · rw [if_neg hpre0]
        exact ih ⟨c, hmem, hpre, s, hw⟩

theorem walk_of_contains (tp : String) (n : DirNode) :
    wfPaths n = true → containsPath tp n = true → ∃ s, walk tp n = some s := by
  induction n using dirnode_strong_ind with
  | _ n ihn =>
    intro hwf hcont
    obtain ⟨nm, pa, sz, dir, dep, cs⟩ := n
    by_cases hpa : pa = tp
    · exact ⟨[DirNode.mk nm pa sz dir dep cs], by simp [walk, hpa]⟩
    · simp only [containsPath, Bool.or_eq_true, beq_iff_eq] at hcont
      rcases hcont with h | hcont
      · exact absurd h hpa
      · cases cs with
        | none => simp [containsPathOpt] at hcont
        | some l =>
          simp only [containsPathOpt] at hcont
          obtain ⟨c, hcmem, hc⟩ := (containsPathList_iff tp l).mp hcont
          simp only [wfPaths, wfPathsOpt] at hwf
          obtain ⟨hcpath, hcwf⟩ := (wfPathsList_iff pa l).mp hwf c hcmem
          have hpre : strStartsWith tp c.path = true :=
            contains_implies_startsWith tp c hcwf hc
          obtain ⟨s, hs⟩ := ihn l (by simp [DirNode.children]) c hcmem hcwf hc
          obtain ⟨s2, hs2⟩ := walkChildren_of_mem tp l ⟨c, hcmem, hpre, s, hs⟩
          refine ⟨DirNode.mk nm pa sz dir dep (some l) :: s2, ?_⟩
          simp only [walk]
          rw [if_neg hpa]
          simp only [walkOpt]
          rw [hs2]

/-! ## Helper lemmas: debounce -/

theorem debounce_pending (delay : Nat) {α : Type} :
    ∀ (rest : List (Nat × α)) (t : Nat) (a : α),
      withinWindow delay t rest = true →
      debounceRun delay rest (some (t + delay, a))
        = [((rest.getLastD (t, a)).1 + delay, (rest.getLastD (t, a)).2)] := by
  intro rest
  induction rest with
  | nil =>
    intro t a _
    simp [debounceRun, List.getLastD]
  | cons e rest2 ih =>
    intro t a hw
    obtain ⟨t2, a2⟩ := e
    simp only [withinWindow, Bool.and_eq_true, decide_eq_true_eq] at hw
    simp only [debounceRun]
    rw [if_pos hw.1, getLastD_cons_eq]
    exact ih t2 a2 hw.2

theorem debounce_burst (delay : Nat) {α : Type} (t : Nat) (a : α)
    (rest : List (Nat × α)) (hw : withinWindow delay t rest = true) :
    debounceRun delay ((t, a) :: rest) none
      = [((rest.getLastD (t, a)).1 + delay, (rest.getLastD (t, a)).2)] := by
  simp only [debounceRun]
  exact debounce_pending delay rest t a hw

/-! ## Claim C1: directory sizes equal the sum of their children -/

/-- Claim C1 is false as stated: a second scan of an unchanged tree hits
the size cache and returns the root with its cached size 5 but an empty
children list, so `size = sum(children)` fails on a tree returned as
complete by `scanDirectory`. -/
theorem C1_counterexample :
    scanDirectory optsCache fsOneFile "/r" [] = some (treeFull, cacheAfterFirst)
    ∧ scanDirectory optsCache fsOneFile "/r" cacheAfterFirst = some (treeCached, cacheAfterFirst)
    ∧ sizeOkTree treeCached = false :=
  ⟨rfl, rfl, rfl⟩

/-- Claim C1 (amended): in every tree returned by `scanDirectory` during
which the size cache is not consulted (caching disabled, which is also
the case whenever a snapshot callback is supplied), every directory
node's size equals the sum of its children's sizes, recursively. -/
theorem C1_theorem (o : ScanOpts) (fs : FS) (path : String) (cache : Cache)
    (t : DirNode) (c' : Cache) (huc : o.useCache = false)
    (h : scanDirectory o fs path cache = some (t, c')) : sizeOkTree t = true :=
  (scan_good o fs path 0 cache t c' (Nat.zero_le _) h).1 huc

/-- Witness for C1 at a concrete scan. -/
theorem C1_witness : sizeOkTree treeFull = true :=
  C1_theorem optsNoCache fsOneFile "/r" [] treeFull cacheAfterFirst rfl rfl

/-! ## Claim C2: focus re-anchoring -/

/-- Claim C2 is false as stated: with focus `/a/b` removed while `/a`
persists in a path-coherent tree, `buildZoomStack` finds no exact match
and falls back to the root, so the new focus is `/` and not the nearest
surviving ancestor `/a`. -/
theorem C2_counterexample :
    reanchor treeAB (some "/a/b") = "/"
    ∧ containsPath "/a" treeAB = true
    ∧ wfPaths treeAB = true
    ∧ ("/" : String) ≠ "/a" :=
  ⟨rfl, rfl, rfl, by decide⟩

/-- Claim C2 (amended): re-anchoring keeps the previous focus path when
it still occurs verbatim in the (path-coherent, non-empty-focus) new
tree; in every other case it resets the focus to the new tree's root —
no intermediate ancestor is ever selected. -/
theorem C2_theorem (t : DirNode) (tp : String) :
    (tp ≠ "" → wfPaths t = true → containsPath tp t = true →
      reanchor t (some tp) = tp)
    ∧ (containsPath tp t = false → reanchor t (some tp) = t.path) := by
  constructor
  · intro hne hwf hcont
    obtain ⟨s, hs⟩ := walk_of_contains tp t hwf hcont
    have hlast := walk_getLast tp t s hs
    have hbz : buildZoomStack t (some tp) = s := by
      show (if tp = "" then [t] else
        match walk tp t with
        | some s2 => s2
        | none => [t]) = s
      rw [if_neg hne, hs]
    unfold reanchor
    rw [hbz]
    exact hlast.2 t
  · intro hcont
    have hbz : buildZoomStack t (some tp) = [t] := by
      show (if tp = "" then [t] else
        match walk tp t with
        | some s2 => s2
        | none => [t]) = [t]
      by_cases hne : tp = ""
      · rw [if_pos hne]
      · rw [if_neg hne]
        cases hw : walk tp t with
        | some s => exact absurd (walk_contains tp t s hw) (by simp [hcont])
        | none => rfl
    unfold reanchor
    rw [hbz]
    rfl

/-- Witness for C2 at concrete trees. -/
theorem C2_witness :
    reanchor treeAB (some "/a") = "/a" ∧ reanchor treeAB (some "/zz") = "/" :=
  ⟨(C2_theorem treeAB "/a").1 (by decide) rfl rfl,
   (C2_theorem treeAB "/zz").2 rfl⟩

/-! ## Claim C3: superseded scans and side effects -/

/-- Claim C3 is false as stated: a scan whose generation (1) has been
superseded (current generation 2) broadcasts nothing, but its completion
still overwrites the current tree with its own result, and its size
cache writes land in the shared cache with no generation check. -/
theorem C3_counterexample :
    c3Step1.2 ≠ c3Final.scanGeneration
    ∧ c3Final.currentTree = some treeA
    ∧ treeA.size ≠ treeB.size
    ∧ cacheGet c3Final.cache "/r/d" = some ⟨3, 1⟩
    ∧ c3Final.events = c3AfterB.events :=
  ⟨by decide, rfl, by decide, rfl, rfl⟩

/-- Claim C3 (amended): a superseded scan's progress and snapshot
callbacks are discarded without any effect and its completion broadcasts
no event — but completion still replaces the current-tree reference, and
the scanner's cache writes are not generation-guarded at all. -/
theorem C3_theorem (s : ServerState) (captured count : Nat) (tree : DirNode) (th : Bool)
    (h : captured ≠ s.scanGeneration) :
    onProgressCb captured count th s = s
    ∧ onSnapshotCb captured tree th s = s
    ∧ (completeScan captured tree s).events = s.events
    ∧ (completeScan captured tree s).currentTree = some tree
    ∧ (completeScan captured tree s).cache = s.cache
    ∧ (completeScan captured tree s).scanGeneration = s.scanGeneration := by
  refine ⟨?_, ?_, ?_, ?_, ?_, ?_⟩
  · unfold onProgressCb
    rw [if_pos h]
  · unfold onSnapshotCb
    rw [if_pos h]
  · simp [completeScan, broadcast, h]
  · simp [completeScan, broadcast, h]
  · simp [completeScan, broadcast, h]
  · simp [completeScan, broadcast, h]

/-- Witness for C3 at a concrete superseded generation. -/
theorem C3_witness :
    onProgressCb 1 42 true c3AfterB = c3AfterB
    ∧ onSnapshotCb 1 treeA true c3AfterB = c3AfterB
    ∧ (completeScan 1 treeA c3AfterB).events = c3AfterB.events :=
  ⟨(C3_theorem c3AfterB 1 42 treeA true (by decide)).1,
   (C3_theorem c3AfterB 1 42 treeA true (by decide)).2.1,
   (C3_theorem c3AfterB 1 42 treeA true (by decide)).2.2.1⟩

/-! ## Claim C4: children sort order -/

/-- Claim C4 is false as stated: two equal-size children listed by
`readdir` as `b` then `a` stay in that order (the sort is stable and the
comparator only looks at sizes), so equal sizes are not ordered by name
ascending. -/
theorem C4_counterexample :
    scanDirectory optsNoCache fsTieOrder "/r" [] = some (treeTie, [("/r", ⟨10, 7⟩)])
    ∧ specSortedTree treeTie = false :=
  ⟨rfl, rfl⟩

/-- Claim C4 (amended): in every tree returned by `scanDirectory`, every
directory's children are sorted descending by size; equal-size children
retain their directory-listing order rather than a name order. -/
theorem C4_theorem (o : ScanOpts) (fs : FS) (path : String) (cache : Cache)
    (t : DirNode) (c' : Cache) (h : scanDirectory o fs path cache = some (t, c')) :
    sortedTree t = true :=
  (scan_good o fs path 0 cache t c' (Nat.zero_le _) h).2.1

/-- Witness for C4 at a concrete scan. -/
theorem C4_witness : sortedTree treeTie = true :=
  C4_theorem optsNoCache fsTieOrder "/r" [] treeTie [("/r", ⟨10, 7⟩)] rfl

/-! ## Claim C5: depth limiting -/

/-- Claim C5 is false as stated: after a deeper scan has cached the root
size (5 bytes, mtime matching), a scan with `maxDepth = 0` returns the
boundary directory with the cached size 5, not the claimed accumulated
size 0. -/
theorem C5_counterexample :
    scanDirectory optsDeep fsOneFile "/r" [] = some (treeFull, cacheAfterFirst)
    ∧ scanDirectory optsZero fsOneFile "/r" cacheAfterFirst = some (treeCached, cacheAfterFirst)
    ∧ treeCached.depth = optsZero.maxDepth
    ∧ treeCached.isDirectory = true
    ∧ treeCached.size ≠ 0 :=
  ⟨rfl, rfl, rfl, rfl, by decide⟩

/-- Claim C5 (amended): no node in a returned tree has depth greater
than `maxDepth`; a directory at depth `maxDepth` has no children; and
when the size cache is not consulted it reports accumulated size 0 (a
cache hit substitutes the cached size instead). -/
theorem C5_theorem (o : ScanOpts) (fs : FS) (path : String) (cache : Cache)
    (t : DirNode) (c' : Cache) (h : scanDirectory o fs path cache = some (t, c')) :
    depthLeTree o.maxDepth t = true
    ∧ boundaryOkTree o.maxDepth t = true
    ∧ (o.useCache = false → boundaryZeroTree o.maxDepth t = true) :=
  ⟨(scan_good o fs path 0 cache t c' (Nat.zero_le _) h).2.2.2.1,
   (scan_good o fs path 0 cache t c' (Nat.zero_le _) h).2.2.2.2.1,
   (scan_good o fs path 0 cache t c' (Nat.zero_le _) h).2.2.2.2.2⟩

/-- Witness for C5 at a concrete scan. -/
theorem C5_witness :
    depthLeTree 10 treeFull = true
    ∧ boundaryOkTree 10 treeFull = true
    ∧ boundaryZeroTree 10 treeFull = true :=
  ⟨(C5_theorem optsNoCache fsOneFile "/r" [] treeFull cacheAfterFirst rfl).1,
   (C5_theorem optsNoCache fsOneFile "/r" [] treeFull cacheAfterFirst rfl).2.1,
   (C5_theorem optsNoCache fsOneFile "/r" [] treeFull cacheAfterFirst rfl).2.2 rfl⟩

/-! ## Claim C6: ignore filtering -/

/-- Claim C6 is false as stated: the ignore filter is applied to
directory entries only, never to the scan root, so a root whose own name
matches an ignore pattern appears in the tree together with all its
descendants. -/
theorem C6_counterexample :
    scanDirectory optsIgnoreNM fsNMroot "/x/node_modules" []
      = some (treeNMroot, [("/x/node_modules", ⟨9, 7⟩)])
    ∧ shouldIgnore treeNMroot.name optsIgnoreNM.ignore = true
    ∧ containsPath "/x/node_modules/x" treeNMroot = true :=
  ⟨rfl, rfl, rfl⟩

/-- Claim C6 (amended): in every tree returned by `scanDirectory`, no
node other than the root has a name matching an ignore pattern — a
matching entry is skipped before `stat`, so neither it nor any of its
descendants is scanned and it contributes nothing to any size total. -/
theorem C6_theorem (o : ScanOpts) (fs : FS) (path : String) (cache : Cache)
    (t : DirNode) (c' : Cache) (h : scanDirectory o fs path cache = some (t, c')) :
    ignoreOkTree o.ignore t = true :=
  (scan_good o fs path 0 cache t c' (Nat.zero_le _) h).2.2.1

/-- Witness for C6 at a concrete scan with an ignored entry. -/
theorem C6_witness : ignoreOkTree ["node_modules"] treeFiltered = true :=
  C6_theorem optsIgnoreNM fsWithNM "/r" [] treeFiltered [("/r", ⟨3, 7⟩)] rfl

/-! ## Claim C7: error handling -/

/-- Claim C7 is false as stated: an unreadable root (its `stat` succeeds
but `readdir` throws) is not fatal — the `catch` around `readdir` eats
the error and the scan returns a tree with no children and size 0
instead of propagating an error. -/
theorem C7_counterexample :
    scan optsNoCache fsUnreadableRoot "/r" 0 []
      = some (.mk "r" "/r" 0 true 0 (some []), [("/r", ⟨0, 5⟩)]) :=
  rfl

/-- Claim C7 (amended): a root whose `stat` fails propagates an error
and produces no tree; a root whose `readdir` fails yields a childless
size-0 tree (stated cache-off; a cache hit would substitute the cached
size); and an entry whose `stat` fails is omitted with no effect at all
on the parent scan or on its siblings' aggregation. -/
theorem C7_theorem :
    (∀ (o : ScanOpts) (path : String) (depth : Nat) (cache : Cache),
        scan o FS.broken path depth cache = none)
    ∧ (∀ (o : ScanOpts) (m : Nat) (entries : List (String × FS)) (path : String)
        (depth : Nat) (cache : Cache), o.useCache = false →
        scan o (.dir m false entries) path depth cache
          = some (.mk (baseName path) path 0 true depth (some []), cacheSet cache path ⟨0, m⟩))
    ∧ (∀ (o : ScanOpts) (pre : List (String × FS)) (nm : String) (post : List (String × FS))
        (path : String) (depth : Nat) (cache : Cache),
        scanEntries o (pre ++ (nm, FS.broken) :: post) path depth cache
          = scanEntries o (pre ++ post) path depth cache) := by
  refine ⟨fun o path depth cache => rfl, ?_,
    fun o pre nm post path depth cache =>
      scanEntries_broken_frame o path depth pre nm post cache⟩
  intro o m entries path depth cache huc
  simp [scan, huc, sortChildren, List.insertionSort]

/-- Witness for C7 at concrete inputs. -/
theorem C7_witness :
    scan optsNoCache FS.broken "/q" 2 [] = none
    ∧ scan optsNoCache fsUnreadableRoot "/r" 0 []
      = some (.mk "r" "/r" 0 true 0 (some []), cacheSet [] "/r" ⟨0, 5⟩)
    ∧ scanEntries optsNoCache ([] ++ ("k", FS.broken) :: []) "/q" 0 []
      = scanEntries optsNoCache ([] ++ []) "/q" 0 [] :=
  ⟨C7_theorem.1 optsNoCache "/q" 2 [],
   C7_theorem.2.1 optsNoCache 5 [("x", FS.file 9)] "/r" 0 [] rfl,
   C7_theorem.2.2 optsNoCache [] "k" [] "/q" 0 []⟩

/-! ## Claim C8: debounce coalescing -/

/-- Claim C8: any burst of raw events (at least one) arriving within one
debounce window produces exactly one invocation of the debounced
callback, one delay after the last event of the burst, carrying that
last event's arguments. -/
theorem C8_theorem (delay t : Nat) (a : RawEvent) (rest : List (Nat × RawEvent))
    (hw : withinWindow delay t rest = true) :
    debounceRun delay ((t, a) :: rest) none
      = [((rest.getLastD (t, a)).1 + delay, (rest.getLastD (t, a)).2)] :=
  debounce_burst delay t a rest hw

/-- Witness for C8: five events inside one 300 ms window fire exactly
once. -/
theorem C8_witness : debounceRun 300 burstFive none = [(304, ("rename", some "e"))] :=
  C8_theorem 300 0 ("change", some "a")
    [(1, ("change", some "b")), (2, ("rename", some "c")), (3, ("change", some "d")),
     (4, ("rename", some "e"))] (by decide)

/-! ## Claim C9: cache invalidation -/

/-- Claim C9 is false as stated: `clearSizeCache("/a")` deletes `/a` but
the loop stops at `"/"` without deleting it, so the root directory's
cache entry — an ancestor of the invalidated path (its parent, by the
code's own parent computation) — survives. -/
theorem C9_counterexample :
    parentPath "/a" = "/"
    ∧ cacheGet (clearSizeCache (some "/a") [("/", ⟨1, 1⟩)]) "/" = some ⟨1, 1⟩ :=
  ⟨rfl, rfl⟩

/-- Claim C9 (amended): invalidating a path removes exactly the entries
for the path and its iterated parents up to but excluding the filesystem
root `"/"` (which is never removed); every other entry — in particular
every descendant — is unchanged; invalidating with no path empties the
cache. -/
theorem C9_theorem (p : String) (c : Cache) (k : String) :
    (k ∈ clearChain (splitSlash p).length p →
        cacheGet (clearSizeCache (some p) c) k = none)
    ∧ (k ∉ clearChain (splitSlash p).length p →
        cacheGet (clearSizeCache (some p) c) k = cacheGet c k)
    ∧ ("/" : String) ∉ clearChain (splitSlash p).length p
    ∧ clearSizeCache none c = [] := by
  refine ⟨?_, ?_, root_not_mem_clearChain _ _, rfl⟩
  · intro hk
    unfold clearSizeCache
    rw [clearLoop_get, if_pos hk]
  · intro hk
    unfold clearSizeCache
    rw [clearLoop_get, if_neg hk]

/-- Witness for C9 at a concrete path and cache. -/
theorem C9_witness :
    cacheGet (clearSizeCache (some "/a/b") [("/a", ⟨1, 1⟩), ("/a/b/c", ⟨2, 2⟩)]) "/a" = none
    ∧ cacheGet (clearSizeCache (some "/a/b") [("/a", ⟨1, 1⟩), ("/a/b/c", ⟨2, 2⟩)]) "/a/b/c"
      = cacheGet [("/a", ⟨1, 1⟩), ("/a/b/c", ⟨2, 2⟩)] "/a/b/c"
    ∧ clearSizeCache none [("/a", ⟨1, 1⟩)] = [] :=
  ⟨( C9_theorem "/a/b" [("/a", ⟨1, 1⟩), ("/a/b/c", ⟨2, 2⟩)] "/a").1 (by decide),
   ( C9_theorem "/a/b" [("/a", ⟨1, 1⟩), ("/a/b/c", ⟨2, 2⟩)] "/a/b/c").2.1 (by decide),
   ( C9_theorem "/a/b" [("/a", ⟨1, 1⟩)] "x").2.2.2⟩

/-! ## Claim C10: debounced watcher applies the last event only -/

/-- Claim C10: for a burst within one debounce window, the watcher's
debounced handler runs exactly once with the last raw event's
`(event, filename)` pair, and cache invalidation before the callback is
the invalidation for that final filename's path only. -/
theorem C10_theorem (delay t : Nat) (a : RawEvent) (rest : List (Nat × RawEvent))
    (absPath : String) (c : Cache) (hw : withinWindow delay t rest = true) :
    watcherRun delay absPath ((t, a) :: rest) c
      = (burstInvalidate absPath (rest.getLastD (t, a)).2.2 c,
         [(rest.getLastD (t, a)).2]) := by
  unfold watcherRun
  rw [debounce_burst delay t a rest hw]
  rfl

/-- Witness for C10: in a five-event burst only the final event's
filename is invalidated and only its pair reaches the callback; the
other filenames' cache entries survive. -/
theorem C10_witness :
    watcherRun 300 "/r" burstFive cacheMulti
      = (burstInvalidate "/r" (some "e") cacheMulti, [("rename", some "e")])
    ∧ cacheGet (watcherRun 300 "/r" burstFive cacheMulti).1 "/r/a" = some ⟨1, 1⟩
    ∧ cacheGet (watcherRun 300 "/r" burstFive cacheMulti).1 "/r/e" = none :=
  ⟨C10_theorem 300 0 ("change", some "a")
      [(1, ("change", some "b")), (2, ("rename", some "c")), (3, ("change", some "d")),
       (4, ("rename", some "e"))] "/r" cacheMulti (by decide),
   rfl, rfl⟩
